import Mathlib

/-!
# go-force: SObject Collections create

A shallow embedding of `force/sobjectcollections.go` (`SObjCollectionCreate`) and the
properties of the batch-create call that follow from it.

The records of a collection are Go objects reached through pointers held in `SObject`
interface values; the function tags each of them by a reflective write through its pointer and
hands the request, which holds the same pointers, to the request executor `ForceApi.Post`.
The embedding keeps

* the memory the pointers refer to (`Heap`), so that two entries of a collection may be one
  object,
* the Go values the reflective calls walk over (`GoValue`),
* the four `reflect` operations the loop body uses, with their panics,
* the method `ApiName()` as a function of the record it is called on, evaluated at each
  tagging,
* the request executor and the path helpers as parameters, and
* the log of executor invocations, so that "how often was the network used" is a statement
  about the result of the function.
-/

namespace force

/-! ## Go values and memory -/

/-- A Go value as the reflective calls of the loop body see it: a string, a struct with its
fields under the names `FieldByName` resolves (an embedded struct is a field named after its
type, as `BaseSObject` in the test's `MockSObject`; a field promoted from a deeper embedded
struct stands under its own name), a pointer to an object in memory (`none` is the nil
pointer), or a value of any other kind, kept by its literal. -/
inductive GoValue where
  | str (s : String)
  | scalar (literal : String)
  | struct (fields : List (String × GoValue))
  | ptr (addr : Option Nat)

/-- The memory: the objects pointers refer to, by address. -/
abbrev Heap := List GoValue

/-- The field called `name` of a struct's field list. -/
def fieldLookup (name : String) : List (String × GoValue) → Option GoValue
  | [] => none
  | (n, v) :: rest => if n = name then some v else fieldLookup name rest

/-- The field list with the field called `name` overwritten by `x`. -/
def fieldStore (name : String) (x : GoValue) :
    List (String × GoValue) → List (String × GoValue)
  | [] => []
  | (n, v) :: rest => if n = name then (n, x) :: rest else (n, v) :: fieldStore name x rest

/-- The value found by following field names from a struct value. -/
def GoValue.field : List String → GoValue → Option GoValue
  | [], v => some v
  | name :: path, .struct fs =>
    match fieldLookup name fs with
    | some f => GoValue.field path f
    | none => none
  | _ :: _, _ => none

/-! ## The part of package reflect the loop body uses -/

namespace reflect

/-- A `reflect.Value`: the value it holds (`none` for the zero Value, of kind Invalid), whether
it is addressable (and so settable: every field name the loop looks up is exported), and what
a write through it does to memory. -/
structure Value where
  cur : Option GoValue
  flagAddr : Bool
  store : GoValue → Heap → Heap

/-- The zero Value. -/
def zero : Value := ⟨none, false, fun _ h => h⟩

/-- `reflect.ValueOf(i)` for a non-nil interface value: holds a copy, not addressable. -/
def ValueOf (i : GoValue) : Value := ⟨some i, false, fun _ h => h⟩

/-- `reflect.Indirect(v)` in memory `h`: the object a pointer points to, addressable, a write
going to that object in memory; the zero Value for a nil pointer (and for an address at which
memory holds nothing, which Go does not have); `v` itself when `v` is not a pointer. -/
def Indirect (h : Heap) (v : Value) : Value :=
  match v.cur with
  | some (.ptr (some a)) =>
    match h[a]? with
    | some t => ⟨some t, true, fun x m => m.set a x⟩
    | none => zero
  | some (.ptr none) => zero
  | _ => v

/-- `v.FieldByName(name)`: panics (`none`) unless `v` is a struct; the zero Value when the
struct has no such field; otherwise the field, addressable when the struct is. -/
def Value.FieldByName (v : Value) (name : String) : Option Value :=
  match v.cur with
  | some (.struct fs) =>
    match fieldLookup name fs with
    | some f => some ⟨some f, v.flagAddr, fun x => v.store (.struct (fieldStore name x fs))⟩
    | none => some zero
  | _ => none

/-- `v.SetString(x)` in memory `h`: panics (`none`) unless `v` is addressable and of kind
String; otherwise writes `x` and gives the memory after the write. -/
def Value.SetString (v : Value) (x : String) (h : Heap) : Option Heap :=
  if v.flagAddr then
    match v.cur with
    | some (.str _) => some (v.store (.str x) h)
    | _ => none
  else none

end reflect

/-! ## Types of package force -/

/-- A non-nil value of interface `SObject`: the method `ApiName()` of its dynamic type, as a
function of the record it is called on (`none` for a nil receiver), and the value the
interface holds, for a record a pointer to a struct in memory. The method only reports a name:
it reads its record and writes nothing. -/
structure SObject where
  ApiName : Option GoValue → String
  val : GoValue

/-- The address of the object a record's pointer refers to. -/
def SObject.addr (so : SObject) : Option Nat :=
  match so.val with
  | .ptr a => a
  | _ => none

/-- The record an interface value refers to: the object its pointer points to, or the value
itself when it is not a pointer. -/
def SObject.record (h : Heap) (so : SObject) : Option GoValue :=
  match so.val with
  | .ptr (some a) => h[a]?
  | .ptr none => none
  | v => some v

/-- The call `so.ApiName()` in a given state of memory. -/
def SObject.name (h : Heap) (so : SObject) : String := so.ApiName (so.record h)

/-- `SObjCollectionRequest`, the request envelope; the records are the interface values, with
their pointers. -/
structure SObjCollectionRequest where
  AllOrNone : Bool
  Records : List SObject

/-- `SObjCollection`, the input sequence. -/
abbrev SObjCollection := List SObject

/-- `ApiError`, one entry of `SObjectResponse.Errors`, with the fields the test and the wire
format name. -/
structure ApiError where
  Fields : List String
  Message : String
  ErrorCode : String
  deriving DecidableEq, Repr

/-- `SObjectResponse`, the outcome of one record, with the fields the test uses. -/
structure SObjectResponse where
  Id : String
  Errors : List ApiError
  Success : Bool
  deriving DecidableEq, Repr

/-- `SObjCollectionResponse`, the decoded response. -/
abbrev SObjCollectionResponse := List SObjectResponse

/-- A Go `error`: `none` is nil. -/
abbrev GoError := Option String

/-- The part of `ForceApi` the function uses: the resource map (a missing key reads as the
empty string) and the request executor `Post(path, params, payload, out)`, which is given the
request, the memory its pointers refer to, and the response object to decode into, and gives
the response object's contents afterwards and its error. -/
structure ForceApi where
  apiResources : String → String
  Post : String → Option (List (String × String)) → SObjCollectionRequest → Heap →
    SObjCollectionResponse → SObjCollectionResponse × GoError

/-- What the function takes from outside the file: the package constant `compositeKey` and
`path.Join` of the standard library, at two arguments. -/
structure Imports where
  compositeKey : String
  Join : String → String → String

/-- One invocation of the request executor: its arguments and the memory at that moment. -/
structure PostCall where
  uri : String
  params : Option (List (String × String))
  req : SObjCollectionRequest
  heap : Heap

/-- What one call of `SObjCollectionCreate` leaves behind: the memory, with the caller's
records in it, the executor invocations made, in order, and the returned pair (`none` when
the call panicked). -/
structure Outcome where
  heap : Heap
  calls : List PostCall
  result : Option (SObjCollectionResponse × GoError)

/-! ## SObjCollectionCreate -/

/-- The selector path of the envelope type-name slot. -/
def typeSlot : List String := ["BaseSObject", "Attributes", "Type"]

/-- The loop body for one record (lines 26-28): the reflective write of `so.ApiName()` into
`BaseSObject.Attributes.Type` of the object the record's pointer refers to. `none` is a
panic. -/
def tagRecord (h : Heap) (so : SObject) : Option Heap := do
  let v := reflect.ValueOf so.val
  let f1 ← (reflect.Indirect h v).FieldByName "BaseSObject"
  let f2 ← f1.FieldByName "Attributes"
  let bo ← f2.FieldByName "Type"
  bo.SetString (so.name h) h

/-- The loop of lines 25-30 over the records, in order: the memory afterwards and whether the
loop ran to the end. Each iteration writes through the record's pointer, so it sees what
earlier iterations wrote; a panic leaves the records before it tagged and the rest
untouched. The entries of `req.Records` are the entries of `in`. -/
def tagLoop : Heap → SObjCollection → Heap × Bool
  | h, [] => (h, true)
  | h, so :: rest =>
    match tagRecord h so with
    | none => (h, false)
    | some h' => tagLoop h' rest

/-- `SObjCollectionCreate(in, allOrNone)`, called in memory `h`. -/
def SObjCollectionCreate (env : Imports) (forceApi : ForceApi) (h : Heap)
    (input : SObjCollection) (allOrNone : Bool) : Outcome :=
  match tagLoop h input with
  | (h', false) => { heap := h', calls := [], result := none }
  | (h', true) =>
    let req : SObjCollectionRequest := { AllOrNone := allOrNone, Records := input }
    let uri := env.Join (forceApi.apiResources env.compositeKey) "sobjects"
    let resp : SObjCollectionResponse := []
    let out := forceApi.Post uri none req h' resp
    { heap := h', calls := [⟨uri, none, req, h'⟩], result := some (out.1, out.2) }

/-- The writes of the loop, in order: the address of the object written to and the name
`so.ApiName()` reports at that tagging. -/
def tagWrites : Heap → SObjCollection → List (Nat × String)
  | _, [] => []
  | h, so :: rest =>
    match so.addr, tagRecord h so with
    | some a, some h' => (a, so.name h) :: tagWrites h' rest
    | _, _ => []

/-- The names the loop writes, in order: what `so.ApiName()` reports at each tagging. -/
def reportedNames (h : Heap) (input : SObjCollection) : List String :=
  (tagWrites h input).map Prod.snd

/-! ## Reading records -/

/-- The value at a selector path of a record, read through the record's pointer. -/
def SObject.field (h : Heap) (so : SObject) (path : List String) : Option GoValue :=
  match so.record h with
  | some v => v.field path
  | none => none

/-- The type field `BaseSObject.Attributes.Type` of a struct. -/
def GoValue.typeName (v : GoValue) : Option String :=
  match v.field typeSlot with
  | some (.str s) => some s
  | _ => none

/-- The envelope type field `BaseSObject.Attributes.Type` of a record. -/
def SObject.typeField (h : Heap) (so : SObject) : Option String :=
  match so.record h with
  | some v => v.typeName
  | none => none

/-- The envelope type-name slot of a record can be located and written: the record is held by
pointer, and the selector path `BaseSObject.Attributes.Type` leads to a string field. -/
def SObject.hasTypeSlot (h : Heap) (so : SObject) : Bool :=
  match so.val, so.typeField h with
  | .ptr _, some _ => true
  | _, _ => false

/-- A taggable record: one whose envelope type-name slot can be located and written. -/
def taggable (h : Heap) (so : SObject) : Prop := so.hasTypeSlot h = true

instance (h : Heap) (so : SObject) : Decidable (taggable h so) := by
  unfold taggable; infer_instance

/-- A collection of taggable records. -/
def allTaggable (h : Heap) (input : SObjCollection) : Prop := ∀ so ∈ input, taggable h so

instance (h : Heap) (input : SObjCollection) : Decidable (allTaggable h input) := by
  unfold allTaggable; infer_instance

/-- A collection whose records are pairwise distinct objects. -/
def distinctObjects (input : SObjCollection) : Prop := (input.map SObject.addr).Nodup

instance (input : SObjCollection) : Decidable (distinctObjects input) := by
  unfold distinctObjects; infer_instance

/-- No record after index `i` of the collection is the object `a`. -/
def notSharedAfter (input : SObjCollection) (i : Nat) (a : Option Nat) : Prop :=
  ∀ so ∈ input.drop (i + 1), so.addr ≠ a

instance (input : SObjCollection) (i : Nat) (a : Option Nat) :
    Decidable (notSharedAfter input i a) := by
  unfold notSharedAfter; infer_instance

/-- A struct with its type-name slot overwritten by `n`; a value without such a slot is left
as it is. -/
def GoValue.withType (n : String) : GoValue → GoValue
  | .struct fs =>
    match fieldLookup "BaseSObject" fs with
    | some (.struct fs2) =>
      match fieldLookup "Attributes" fs2 with
      | some (.struct fs3) =>
        match fieldLookup "Type" fs3 with
        | some (.str _) =>
          .struct (fieldStore "BaseSObject" (.struct (fieldStore "Attributes"
            (.struct (fieldStore "Type" (.str n) fs3)) fs2)) fs)
        | _ => .struct fs
      | _ => .struct fs
    | _ => .struct fs
  | v => v

/-- The memory with the type-name slot of the object at `a` overwritten by `n`. -/
def writeAt (a : Nat) (n : String) (h : Heap) : Heap :=
  match h[a]? with
  | some obj => h.set a (obj.withType n)
  | none => h

/-- The overwrites `ws` done in order. -/
def applyWrites : List (Nat × String) → Heap → Heap
  | [], h => h
  | (a, n) :: ws, h => applyWrites ws (writeAt a n h)

/-- An executor whose response does not depend on the `AllOrNone` flag of the request. -/
def ignoresAllOrNone (forceApi : ForceApi) : Prop :=
  ∀ uri params records heap out,
    forceApi.Post uri params ⟨true, records⟩ heap out =
      forceApi.Post uri params ⟨false, records⟩ heap out

/-! ## The records, resources and responses of the test -/

/-- A `sobjects.BaseSObject` with its `Attributes`, as far as the test's request body shows. -/
def baseSObject (type : String) : GoValue :=
  .struct [("Attributes", .struct [("Type", .str type), ("Url", .str "")]), ("Id", .str "")]

/-- A `MockSObject{Name: name, Cash: cash}` of the test. -/
def mockObject (name cash : String) : GoValue :=
  .struct [("BaseSObject", baseSObject ""), ("Name", .str name), ("Cash", .scalar cash)]

/-- The memory of the test: the two `MockSObject` values, and a third one. -/
def testHeap : Heap :=
  [mockObject "object A" "32.9", mockObject "object B" "98.34", mockObject "object C" "1.5"]

/-- A pointer to the object at `a`, of a type whose `ApiName()` returns `api`. -/
def recordNamed (api : String) (a : Nat) : SObject :=
  { ApiName := fun _ => api, val := .ptr (some a) }

/-- A `*MockSObject` pointing to the object at `a`. -/
def mockSObject (a : Nat) : SObject := recordNamed "totally_valid_object__c" a

/-- The collection `expenses` of the test. -/
def expenses : SObjCollection := [mockSObject 0, mockSObject 1]

/-- A record struct handed over by value instead of by pointer (a type whose methods have
value receivers): its slot is found but cannot be written. -/
def byValueRecord : SObject :=
  { ApiName := fun _ => "totally_valid_object__c", val := mockObject "object C" "1.5" }

/-- A pointer to the object at `a`, of a type whose `ApiName()` reads the record's type field:
a record not yet tagged as a draft is a draft, a draft is final. -/
def draftRecord (a : Nat) : SObject :=
  { ApiName := fun r =>
      match r with
      | some v => if v.typeName = some "Draft__c" then "Final__c" else "Draft__c"
      | none => "Draft__c",
    val := .ptr (some a) }

/-- The entry of the test's resource map the function reads. -/
def testResources (key : String) : String :=
  if key = "composite" then "/services/data/v43.0/composite" else ""

/-- The constant and the path join for the test's resource map, whose paths are clean. -/
def testImports : Imports :=
  { compositeKey := "composite", Join := fun a b => a ++ "/" ++ b }

/-- A test server: an executor that decodes `resp` and reports `err`, whatever the request. -/
def serverReplying (resp : SObjCollectionResponse) (err : GoError) : ForceApi :=
  { apiResources := testResources, Post := fun _ _ _ _ _ => (resp, err) }

/-- The decoded response of the test case "all items processed succesfully". -/
def allSucceeded : SObjCollectionResponse :=
  [⟨"001RM000003oLnnYAE", [], true⟩, ⟨"003RM0000068xV6YAI", [], true⟩]

/-- The outcome entry of a record the server refused as a duplicate. -/
def duplicateRefused : SObjectResponse :=
  ⟨"", [⟨[], "Use one of these records?", "DUPLICATES_DETECTED"⟩], false⟩

/-- The decoded response of the test case "some items cause errors, allOrNone false". -/
def someFailed : SObjCollectionResponse :=
  [duplicateRefused, ⟨"003RM0000068xVCYAY", [], true⟩]

/-! ## Field lists -/

theorem fieldLookup_fieldStore_same (n : String) (x : GoValue) (fs : List (String × GoValue))
    (h : (fieldLookup n fs).isSome = true) : fieldLookup n (fieldStore n x fs) = some x := by
  induction fs with
  | nil => simp [fieldLookup] at h
  | cons p rest ih =>
    obtain ⟨m, v⟩ := p
    by_cases hm : m = n
    · simp [fieldLookup, fieldStore, hm]
    · simp [fieldLookup, fieldStore, hm] at h ⊢
      exact ih h

theorem fieldStore_fieldStore (n : String) (x y : GoValue) (fs : List (String × GoValue)) :
    fieldStore n x (fieldStore n y fs) = fieldStore n x fs := by
  induction fs with
  | nil => simp [fieldStore]
  | cons p rest ih =>
    obtain ⟨k, v⟩ := p
    by_cases hk : k = n
    · simp [fieldStore, hk]
    · simp [fieldStore, hk, ih]

/-! ## The type-name slot of a struct -/

/-- A value has a type field exactly when it is a struct whose `BaseSObject.Attributes.Type`
is a string field. -/
theorem typeName_eq_some (v : GoValue) (s : String) :
    v.typeName = some s ↔
      ∃ fs fs2 fs3, v = .struct fs ∧
        fieldLookup "BaseSObject" fs = some (.struct fs2) ∧
        fieldLookup "Attributes" fs2 = some (.struct fs3) ∧
        fieldLookup "Type" fs3 = some (.str s) := by
  constructor
  · intro h
    rcases v with s0 | l | fs | e
    · simp [GoValue.typeName, typeSlot, GoValue.field] at h
    · simp [GoValue.typeName, typeSlot, GoValue.field] at h
    · simp only [GoValue.typeName, typeSlot, GoValue.field] at h
      cases h1 : fieldLookup "BaseSObject" fs with
      | none => simp [h1] at h
      | some b =>
        rcases b with s0 | l | fs2 | e
        · simp [h1, GoValue.field] at h
        · simp [h1, GoValue.field] at h
        · cases h2 : fieldLookup "Attributes" fs2 with
          | none => simp [h1, h2, GoValue.field] at h
          | some a =>
            rcases a with s0 | l | fs3 | e
            · simp [h1, h2, GoValue.field] at h
            · simp [h1, h2, GoValue.field] at h
            · cases h3 : fieldLookup "Type" fs3 with
              | none => simp [h1, h2, h3, GoValue.field] at h
              | some t =>
                rcases t with s0 | l | fs4 | e
                · simp [h1, h2, h3, GoValue.field] at h
                  subst h
                  exact ⟨fs, fs2, fs3, rfl, h1, h2, h3⟩
                · simp [h1, h2, h3, GoValue.field] at h
                · simp [h1, h2, h3, GoValue.field] at h
                · simp [h1, h2, h3, GoValue.field] at h
            · simp [h1, h2, GoValue.field] at h
        · simp [h1, GoValue.field] at h
    · simp [GoValue.typeName, typeSlot, GoValue.field] at h
  · rintro ⟨fs, fs2, fs3, rfl, h1, h2, h3⟩
    simp [GoValue.typeName, typeSlot, GoValue.field, h1, h2, h3]

/-- On a struct with a type-name slot, `withType` overwrites the slot. -/
theorem withType_of_slot (n : String) (fs fs2 fs3 : List (String × GoValue)) (s : String)
    (h1 : fieldLookup "BaseSObject" fs = some (.struct fs2))
    (h2 : fieldLookup "Attributes" fs2 = some (.struct fs3))
    (h3 : fieldLookup "Type" fs3 = some (.str s)) :
    (GoValue.struct fs).withType n =
      .struct (fieldStore "BaseSObject" (.struct (fieldStore "Attributes"
        (.struct (fieldStore "Type" (.str n) fs3)) fs2)) fs) := by
  simp [GoValue.withType, h1, h2, h3]

/-- A value without a type-name slot is left as it is. -/
theorem withType_of_no_slot (n : String) (v : GoValue) (h : v.typeName = none) :
    v.withType n = v := by
  rcases v with s0 | l | fs | e
  · rfl
  · rfl
  · simp only [GoValue.withType]
    split
    · rename_i fs2 h1
      split
      · rename_i fs3 h2
        split
        · rename_i s h3
          have := (typeName_eq_some (.struct fs) s).2 ⟨fs, fs2, fs3, rfl, h1, h2, h3⟩
          rw [h] at this
          cases this
        · rfl
      · rfl
    · rfl
  · rfl

/-- After the overwrite the type field reads as the written name. -/
theorem typeName_withType (n : String) (v : GoValue) (s : String) (h : v.typeName = some s) :
    (v.withType n).typeName = some n := by
  obtain ⟨fs, fs2, fs3, rfl, h1, h2, h3⟩ := (typeName_eq_some v s).1 h
  rw [withType_of_slot n fs fs2 fs3 s h1 h2 h3]
  exact (typeName_eq_some _ _).2 ⟨_, fieldStore "Attributes"
      (.struct (fieldStore "Type" (.str n) fs3)) fs2, fieldStore "Type" (.str n) fs3, rfl,
    fieldLookup_fieldStore_same _ _ _ (by simp [h1]),
    fieldLookup_fieldStore_same _ _ _ (by simp [h2]),
    fieldLookup_fieldStore_same _ _ _ (by simp [h3])⟩

/-- The overwrite neither creates nor removes a type-name slot. -/
theorem typeName_withType_isSome (n : String) (v : GoValue) :
    (v.withType n).typeName.isSome = v.typeName.isSome := by
  cases h : v.typeName with
  | none => rw [withType_of_no_slot n v h, h]
  | some s => rw [typeName_withType n v s h]; rfl

/-- A second overwrite replaces the first. -/
theorem withType_withType (n m : String) (v : GoValue) :
    (v.withType m).withType n = v.withType n := by
  cases h : v.typeName with
  | none => rw [withType_of_no_slot m v h]
  | some s =>
    obtain ⟨fs, fs2, fs3, rfl, h1, h2, h3⟩ := (typeName_eq_some v s).1 h
    rw [withType_of_slot m fs fs2 fs3 s h1 h2 h3, withType_of_slot n fs fs2 fs3 s h1 h2 h3]
    rw [withType_of_slot n _ (fieldStore "Attributes"
        (.struct (fieldStore "Type" (.str m) fs3)) fs2) (fieldStore "Type" (.str m) fs3) m
      (fieldLookup_fieldStore_same _ _ _ (by simp [h1]))
      (fieldLookup_fieldStore_same _ _ _ (by simp [h2]))
      (fieldLookup_fieldStore_same _ _ _ (by simp [h3]))]
    simp [fieldStore_fieldStore]

theorem FieldByName_found (v : reflect.Value) (n : String) (w : reflect.Value)
    (h : v.FieldByName n = some w) (hw : w.cur ≠ none) :
    ∃ fs f, v.cur = some (.struct fs) ∧ fieldLookup n fs = some f ∧
      w = ⟨some f, v.flagAddr, fun x => v.store (.struct (fieldStore n x fs))⟩ := by
  unfold reflect.Value.FieldByName at h
  split at h
  · rename_i fs hc
    split at h
    · rename_i f hf
      refine ⟨fs, f, hc, hf, ?_⟩
      simpa using h.symm
    · simp at h
      subst h
      simp [reflect.zero] at hw
  · simp at h

/-- The loop body succeeds exactly on a pointer to a struct in memory whose
`BaseSObject.Attributes.Type` is a string field, and then overwrites that field of that
object with the name the record reports, and nothing else. -/
theorem tagRecord_eq_some (h : Heap) (so : SObject) (h' : Heap) :
    tagRecord h so = some h' ↔
      ∃ a obj s, so.val = .ptr (some a) ∧ h[a]? = some obj ∧ obj.typeName = some s ∧
        h' = h.set a (obj.withType (so.name h)) := by
  constructor
  · intro ht
    simp only [tagRecord, Option.bind_eq_bind, Option.bind_eq_some] at ht
    obtain ⟨f1, h1, f2, h2, bo, h3, h4⟩ := ht
    have hbo : bo.flagAddr = true ∧ ∃ s, bo.cur = some (.str s) := by
      unfold reflect.Value.SetString at h4
      split at h4
      · rename_i ha
        refine ⟨ha, ?_⟩
        split at h4
        · rename_i s hs; exact ⟨s, hs⟩
        · simp at h4
      · simp at h4
    obtain ⟨hba, s, hbs⟩ := hbo
    obtain ⟨fs3, t, hc2, hl3, hbo⟩ := FieldByName_found f2 "Type" bo h3 (by simp [hbs])
    obtain ⟨fs2, b, hc1, hl2, hf2⟩ := FieldByName_found f1 "Attributes" f2 h2 (by simp [hc2])
    obtain ⟨fs, c, hc0, hl1, hf1⟩ := FieldByName_found _ "BaseSObject" f1 h1 (by simp [hc1])
    subst hbo hf2 hf1
    simp only at hba hc1 hc2 hbs
    cases hc1; cases hc2; cases hbs
    cases hv : so.val with
    | str s0 => simp [hv, reflect.ValueOf, reflect.Indirect] at hba
    | scalar l => simp [hv, reflect.ValueOf, reflect.Indirect] at hba
    | struct fs0 => simp [hv, reflect.ValueOf, reflect.Indirect] at hba
    | ptr e =>
      rcases e with _ | a
      · simp [hv, reflect.ValueOf, reflect.Indirect, reflect.zero] at hba
      · cases ho : h[a]? with
        | none => simp [hv, ho, reflect.ValueOf, reflect.Indirect, reflect.zero] at hba
        | some obj =>
          simp only [hv, ho, reflect.ValueOf, reflect.Indirect] at hc0 h4
          cases hc0
          refine ⟨a, _, s, rfl, ho, (typeName_eq_some _ _).2 ⟨fs, fs2, fs3, rfl, hl1, hl2, hl3⟩, ?_⟩
          simp [reflect.Value.SetString] at h4
          rw [withType_of_slot _ fs fs2 fs3 s hl1 hl2 hl3]
          exact h4.symm
  · rintro ⟨a, obj, s, hv, ho, hs, rfl⟩
    obtain ⟨fs, fs2, fs3, rfl, h1, h2, h3⟩ := (typeName_eq_some obj s).1 hs
    rw [withType_of_slot _ fs fs2 fs3 s h1 h2 h3]
    simp [tagRecord, reflect.ValueOf, reflect.Indirect, reflect.Value.FieldByName,
      reflect.Value.SetString, hv, ho, h1, h2, h3]

/-- A record has a type-name slot exactly when it is a pointer to a struct in memory whose
`BaseSObject.Attributes.Type` is a string field. -/
theorem hasTypeSlot_iff (h : Heap) (so : SObject) :
    so.hasTypeSlot h = true ↔
      ∃ a obj s, so.val = .ptr (some a) ∧ h[a]? = some obj ∧ obj.typeName = some s := by
  constructor
  · intro ht
    cases hv : so.val with
    | str s0 => simp [SObject.hasTypeSlot, hv] at ht
    | scalar l => simp [SObject.hasTypeSlot, hv] at ht
    | struct fs0 => simp [SObject.hasTypeSlot, hv] at ht
    | ptr e =>
      rcases e with _ | a
      · simp [SObject.hasTypeSlot, SObject.typeField, SObject.record, hv] at ht
      · cases ho : h[a]? with
        | none => simp [SObject.hasTypeSlot, SObject.typeField, SObject.record, hv, ho] at ht
        | some obj =>
          cases hs : obj.typeName with
          | none =>
            simp [SObject.hasTypeSlot, SObject.typeField, SObject.record, hv, ho, hs] at ht
          | some s => exact ⟨a, obj, s, rfl, ho, hs⟩
  · rintro ⟨a, obj, s, hv, ho, hs⟩
    simp [SObject.hasTypeSlot, SObject.typeField, SObject.record, hv, ho, hs]

/-- The loop body panics on no taggable record and on every other one. -/
theorem taggable_iff (h : Heap) (so : SObject) :
    taggable h so ↔ ∃ h', tagRecord h so = some h' := by
  unfold taggable
  rw [hasTypeSlot_iff]
  constructor
  · rintro ⟨a, obj, s, hv, ho, hs⟩
    exact ⟨_, (tagRecord_eq_some h so _).2 ⟨a, obj, s, hv, ho, hs, rfl⟩⟩
  · rintro ⟨h', ht⟩
    obtain ⟨a, obj, s, hv, ho, hs, -⟩ := (tagRecord_eq_some h so h').1 ht
    exact ⟨a, obj, s, hv, ho, hs⟩

/-- On a taggable record the loop body is the overwrite of the slot of the record's object. -/
theorem tagRecord_of_taggable (h : Heap) (so : SObject) (ht : taggable h so) :
    ∃ a, so.addr = some a ∧ tagRecord h so = some (writeAt a (so.name h) h) := by
  obtain ⟨a, obj, s, hv, ho, hs⟩ := (hasTypeSlot_iff h so).1 ht
  refine ⟨a, by simp [SObject.addr, hv], ?_⟩
  rw [(tagRecord_eq_some h so _).2 ⟨a, obj, s, hv, ho, hs, rfl⟩]
  simp [writeAt, ho]

/-! ## Overwrites in memory -/

theorem getElem?_writeAt (a b : Nat) (n : String) (h : Heap) :
    (writeAt a n h)[b]? = if a = b then (h[b]?).map (GoValue.withType n) else h[b]? := by
  unfold writeAt
  cases ho : h[a]? with
  | none =>
    by_cases e : a = b
    · subst e; simp [ho]
    · simp [e]
  | some obj =>
    by_cases e : a = b
    · subst e
      simp only [if_true, ho, Option.map_some']
      rw [List.getElem?_set_self']
      simp [ho]
    · simp [e, List.getElem?_set_ne e]

/-- Memories of equal contents at every address are equal. -/
theorem heap_ext (h1 h2 : Heap) (hget : ∀ a : Nat, h1[a]? = h2[a]?) : h1 = h2 :=
  List.ext_getElem? hget

/-- A later overwrite of the same object replaces the earlier one. -/
theorem writeAt_writeAt (a : Nat) (n m : String) (h : Heap) :
    writeAt a n (writeAt a m h) = writeAt a n h := by
  apply heap_ext
  intro b
  simp only [getElem?_writeAt]
  by_cases e : a = b
  · cases ho : h[b]? <;> simp [e, ho, withType_withType]
  · simp [e]

/-- Overwrites of different objects commute. -/
theorem writeAt_comm (a b : Nat) (n m : String) (h : Heap) (hab : a ≠ b) :
    writeAt a n (writeAt b m h) = writeAt b m (writeAt a n h) := by
  apply heap_ext
  intro c
  simp only [getElem?_writeAt]
  by_cases e1 : a = c
  · subst e1
    have : ¬ b = a := fun e => hab e.symm
    simp [this]
  · simp [e1]

/-- An overwrite in memory neither creates nor removes the type-name slot of any record. -/
theorem hasTypeSlot_writeAt (a : Nat) (n : String) (h : Heap) (so : SObject) :
    so.hasTypeSlot (writeAt a n h) = so.hasTypeSlot h := by
  cases hv : so.val with
  | str s0 => simp [SObject.hasTypeSlot, hv]
  | scalar l => simp [SObject.hasTypeSlot, hv]
  | struct fs0 => simp [SObject.hasTypeSlot, hv]
  | ptr e =>
    rcases e with _ | b
    · simp [SObject.hasTypeSlot, SObject.typeField, SObject.record, hv]
    · have key : (so.typeField (writeAt a n h)).isSome = (so.typeField h).isSome := by
        simp only [SObject.typeField, SObject.record, hv, getElem?_writeAt]
        by_cases e : a = b
        · cases ho : h[b]? with
          | none => simp [e, ho]
          | some obj => simp [e, ho, typeName_withType_isSome]
        · simp [e]
      simp only [SObject.hasTypeSlot, hv]
      cases h1 : so.typeField (writeAt a n h) <;> cases h2 : so.typeField h <;>
        simp [h1, h2] at key ⊢

theorem taggable_writeAt (a : Nat) (n : String) (h : Heap) (so : SObject) :
    taggable (writeAt a n h) so ↔ taggable h so := by
  simp [taggable, hasTypeSlot_writeAt]

theorem allTaggable_writeAt (a : Nat) (n : String) (h : Heap) (input : SObjCollection) :
    allTaggable (writeAt a n h) input ↔ allTaggable h input := by
  simp [allTaggable, taggable_writeAt]

/-! ## The loop -/

/-- A tagging that does not panic is the overwrite of the slot of the record's object. -/
theorem tagRecord_some (h : Heap) (so : SObject) (h' : Heap) (ht : tagRecord h so = some h') :
    taggable h so ∧ ∃ a, so.addr = some a ∧ h' = writeAt a (so.name h) h := by
  have htag : taggable h so := (taggable_iff h so).2 ⟨h', ht⟩
  obtain ⟨a, ha, hw⟩ := tagRecord_of_taggable h so htag
  rw [ht] at hw
  exact ⟨htag, a, ha, Option.some.inj hw⟩

/-- On taggable records the loop runs to the end and does the writes of its trace. -/
theorem tagLoop_complete (h : Heap) (input : SObjCollection) (ht : allTaggable h input) :
    tagLoop h input = (applyWrites (tagWrites h input) h, true) := by
  induction input generalizing h with
  | nil => simp [tagLoop, tagWrites, applyWrites]
  | cons so rest ih =>
    obtain ⟨a, ha, hw⟩ := tagRecord_of_taggable h so (ht so (by simp))
    have hrest : allTaggable (writeAt a (so.name h) h) rest :=
      (allTaggable_writeAt _ _ _ _).2 (fun x hx => ht x (by simp [hx]))
    simp [tagLoop, tagWrites, applyWrites, ha, hw, ih _ hrest]

/-- The trace has one write per record, to the record's object. -/
theorem tagWrites_addr (h : Heap) (input : SObjCollection) (ht : allTaggable h input) :
    (tagWrites h input).map (fun w => some w.1) = input.map SObject.addr := by
  induction input generalizing h with
  | nil => simp [tagWrites]
  | cons so rest ih =>
    obtain ⟨a, ha, hw⟩ := tagRecord_of_taggable h so (ht so (by simp))
    have hrest : allTaggable (writeAt a (so.name h) h) rest :=
      (allTaggable_writeAt _ _ _ _).2 (fun x hx => ht x (by simp [hx]))
    simp [tagWrites, ha, hw, ih _ hrest]

/-- A record that cannot be tagged stops the loop, wherever it stands. -/
theorem tagLoop_panics (h : Heap) (input : SObjCollection) (so : SObject) (hmem : so ∈ input)
    (hso : ¬ taggable h so) : (tagLoop h input).2 = false := by
  induction input generalizing h with
  | nil => simp at hmem
  | cons x rest ih =>
    cases hx : tagRecord h x with
    | none => simp [tagLoop, hx]
    | some h' =>
      obtain ⟨hxt, a, -, rfl⟩ := tagRecord_some h x h' hx
      have hne : so ≠ x := by
        rintro rfl
        exact hso hxt
      have hin : so ∈ rest := by
        rcases List.mem_cons.1 hmem with e | e
        · exact absurd e hne
        · exact e
      have := ih (writeAt a (x.name h) h) hin
        (fun c => hso ((taggable_writeAt a (x.name h) h so).1 c))
      simp [tagLoop, hx, this]

/-- The loop leaves alone every object none of its records points to. -/
theorem tagLoop_frame (h : Heap) (input : SObjCollection) (b : Nat)
    (hb : ∀ so ∈ input, so.addr ≠ some b) : (tagLoop h input).1[b]? = h[b]? := by
  induction input generalizing h with
  | nil => simp [tagLoop]
  | cons x rest ih =>
    cases hx : tagRecord h x with
    | none => simp [tagLoop, hx]
    | some h' =>
      obtain ⟨-, a, ha, rfl⟩ := tagRecord_some h x h' hx
      have hab : a ≠ b := by
        intro e
        exact hb x (by simp) (by rw [ha, e])
      simp only [tagLoop, hx]
      rw [ih _ (fun so hso => hb so (by simp [hso])), getElem?_writeAt]
      simp [hab]

/-- The loop changes an object at most by overwriting its type-name slot. -/
theorem tagLoop_changes_slot_only (h : Heap) (input : SObjCollection) (b : Nat) :
    (tagLoop h input).1[b]? = h[b]? ∨
      ∃ n, (tagLoop h input).1[b]? = (h[b]?).map (GoValue.withType n) := by
  induction input generalizing h with
  | nil => simp [tagLoop]
  | cons x rest ih =>
    cases hx : tagRecord h x with
    | none => simp [tagLoop, hx]
    | some h' =>
      obtain ⟨-, a, ha, rfl⟩ := tagRecord_some h x h' hx
      simp only [tagLoop, hx]
      by_cases e : a = b
      · right
        rcases ih (writeAt a (x.name h) h) with h1 | ⟨n, h1⟩
        · exact ⟨x.name h, by rw [h1, getElem?_writeAt]; simp [e]⟩
        · refine ⟨n, ?_⟩
          rw [h1, getElem?_writeAt]
          cases ho : h[b]? <;> simp [e, ho, withType_withType]
      · rcases ih (writeAt a (x.name h) h) with h1 | ⟨n, h1⟩
        · left
          rw [h1, getElem?_writeAt]; simp [e]
        · right
          refine ⟨n, ?_⟩
          rw [h1, getElem?_writeAt]; simp [e]

/-- After a completed loop every record of the collection is tagged: its object is the
object before the loop with the slot overwritten. -/
theorem tagLoop_tags (h : Heap) (input : SObjCollection) (ht : allTaggable h input)
    (so : SObject) (hmem : so ∈ input) :
    ∃ a obj n, so.addr = some a ∧ h[a]? = some obj ∧
      (tagLoop h input).1[a]? = some (obj.withType n) := by
  induction input generalizing h with
  | nil => simp at hmem
  | cons x rest ih =>
    obtain ⟨a, ha, hw⟩ := tagRecord_of_taggable h x (ht x (by simp))
    have hrest : allTaggable (writeAt a (x.name h) h) rest :=
      (allTaggable_writeAt _ _ _ _).2 (fun y hy => ht y (by simp [hy]))
    simp only [tagLoop, hw]
    rcases List.mem_cons.1 hmem with e | e
    · subst e
      obtain ⟨a', obj, s, hv, ho, -⟩ := (hasTypeSlot_iff h so).1 (ht so (by simp))
      have haa : a = a' := by
        simp [SObject.addr, hv] at ha
        exact ha.symm
      subst haa
      refine ⟨a, obj, ?_⟩
      rcases tagLoop_changes_slot_only (writeAt a (so.name h) h) rest a with h1 | ⟨n, h1⟩
      · exact ⟨so.name h, ha, ho, by rw [h1, getElem?_writeAt]; simp [ho]⟩
      · exact ⟨n, ha, ho, by rw [h1, getElem?_writeAt]; simp [ho, withType_withType]⟩
    · obtain ⟨b, obj, n, hb, ho, hfin⟩ := ih _ hrest e
      rw [getElem?_writeAt] at ho
      by_cases eab : a = b
      · cases ho0 : h[b]? with
        | none => simp [eab, ho0] at ho
        | some obj0 =>
          simp [eab, ho0] at ho
          subst ho
          exact ⟨b, obj0, n, hb, ho0, by rw [hfin, withType_withType]⟩
      · simp [eab] at ho
        exact ⟨b, obj, n, hb, ho, hfin⟩

/-! ## What a record reads after the loop -/

theorem addr_eq_some (so : SObject) (a : Nat) : so.addr = some a ↔ so.val = .ptr (some a) := by
  cases hv : so.val <;> simp [SObject.addr, hv]

theorem record_of_addr (h : Heap) (so : SObject) (a : Nat) (ha : so.addr = some a) :
    so.record h = h[a]? := by
  simp [SObject.record, (addr_eq_some so a).1 ha]

/-- An overwrite of another object is not seen by a record. -/
theorem record_writeAt (a : Nat) (n : String) (h : Heap) (so : SObject)
    (hne : so.addr ≠ some a) : so.record (writeAt a n h) = so.record h := by
  cases hv : so.val with
  | str s0 => simp [SObject.record, hv]
  | scalar l => simp [SObject.record, hv]
  | struct fs0 => simp [SObject.record, hv]
  | ptr e =>
    rcases e with _ | b
    · simp [SObject.record, hv]
    · have hab : a ≠ b := by
        intro e
        apply hne
        simp [SObject.addr, hv, e]
      simp [SObject.record, hv, getElem?_writeAt, hab]

theorem reportedNames_cons (h : Heap) (so : SObject) (rest : SObjCollection) (a : Nat)
    (ha : so.addr = some a) (hw : tagRecord h so = some (writeAt a (so.name h) h)) :
    reportedNames h (so :: rest) = so.name h :: reportedNames (writeAt a (so.name h) h) rest := by
  simp [reportedNames, tagWrites, ha, hw]

/-- After a completed loop the type field of a record that no later record shares is the name
the record reported when it was tagged. -/
theorem typeField_after_loop (h : Heap) (input : SObjCollection) (ht : allTaggable h input)
    (i : Nat) (so : SObject) (hi : input[i]? = some so)
    (hns : notSharedAfter input i so.addr) :
    so.typeField (tagLoop h input).1 = (reportedNames h input)[i]? := by
  induction input generalizing h i with
  | nil => simp at hi
  | cons x rest ih =>
    obtain ⟨a, ha, hw⟩ := tagRecord_of_taggable h x (ht x (by simp))
    have hrest : allTaggable (writeAt a (x.name h) h) rest :=
      (allTaggable_writeAt _ _ _ _).2 (fun y hy => ht y (by simp [hy]))
    rw [reportedNames_cons h x rest a ha hw]
    simp only [tagLoop, hw]
    cases i with
    | zero =>
      simp only [List.getElem?_cons_zero, Option.some.injEq] at hi
      subst hi
      have hfr : ∀ s ∈ rest, s.addr ≠ some a := by
        intro s hs
        have := hns s (by simpa using hs)
        rwa [ha] at this
      obtain ⟨a', obj, s, hv, ho, hs⟩ := (hasTypeSlot_iff h x).1 (ht x (by simp))
      have haa : a' = a := by
        have := (addr_eq_some x a).1 ha
        rw [hv] at this
        simpa using this
      subst haa
      simp only [SObject.typeField, record_of_addr _ x a' ha, List.getElem?_cons_zero]
      rw [tagLoop_frame _ rest a' hfr, getElem?_writeAt]
      simp [ho, typeName_withType _ obj s hs]
    | succ k =>
      simp only [List.getElem?_cons_succ] at hi ⊢
      exact ih _ hrest k hi (fun s hs => hns s (by simpa using hs))

/-- In a collection of pairwise distinct objects no record is shared with a later one. -/
theorem notSharedAfter_of_distinct (input : SObjCollection) (hd : distinctObjects input)
    (i : Nat) (so : SObject) (hi : input[i]? = some so) : notSharedAfter input i so.addr := by
  induction input generalizing i with
  | nil => simp at hi
  | cons x rest ih =>
    have hd' : x.addr ∉ rest.map SObject.addr ∧ (rest.map SObject.addr).Nodup := by
      simpa [distinctObjects] using hd
    cases i with
    | zero =>
      simp only [List.getElem?_cons_zero, Option.some.injEq] at hi
      subst hi
      intro s hs e
      apply hd'.1
      rw [← e]
      exact List.mem_map_of_mem _ (by simpa using hs)
    | succ k =>
      simp only [List.getElem?_cons_succ] at hi
      intro s hs
      exact ih hd'.2 k hi s (by simpa using hs)

/-- In a collection of pairwise distinct objects each record reports, when it is tagged, the
name it reports before the loop. -/
theorem reportedNames_of_distinct (h : Heap) (input : SObjCollection)
    (ht : allTaggable h input) (hd : distinctObjects input)
    (i : Nat) (so : SObject) (hi : input[i]? = some so) :
    (reportedNames h input)[i]? = some (so.name h) := by
  induction input generalizing h i with
  | nil => simp at hi
  | cons x rest ih =>
    obtain ⟨a, ha, hw⟩ := tagRecord_of_taggable h x (ht x (by simp))
    have hrest : allTaggable (writeAt a (x.name h) h) rest :=
      (allTaggable_writeAt _ _ _ _).2 (fun y hy => ht y (by simp [hy]))
    have hd' : x.addr ∉ rest.map SObject.addr ∧ (rest.map SObject.addr).Nodup := by
      simpa [distinctObjects] using hd
    rw [reportedNames_cons h x rest a ha hw]
    cases i with
    | zero =>
      simp only [List.getElem?_cons_zero, Option.some.injEq] at hi
      subst hi
      simp
    | succ k =>
      simp only [List.getElem?_cons_succ] at hi ⊢
      rw [ih _ hrest hd'.2 k hi]
      have hne : so.addr ≠ some a := by
        intro e
        apply hd'.1
        rw [ha, ← e]
        exact List.mem_map_of_mem _ (List.getElem?_mem hi)
      simp [SObject.name, record_writeAt a _ h so hne]

/-! ## Running the loop twice -/

theorem applyWrites_append (ws vs : List (Nat × String)) (h : Heap) :
    applyWrites (ws ++ vs) h = applyWrites vs (applyWrites ws h) := by
  induction ws generalizing h with
  | nil => rfl
  | cons w ws ih =>
    obtain ⟨a, n⟩ := w
    simp [applyWrites, ih]

/-- A write that is repeated at the end need not be done at the start. -/
theorem applyWrites_absorb (a : Nat) (n : String) (ws : List (Nat × String)) (h : Heap) :
    writeAt a n (applyWrites ws (writeAt a n h)) = writeAt a n (applyWrites ws h) := by
  induction ws generalizing h with
  | nil => simp [applyWrites, writeAt_writeAt]
  | cons w ws ih =>
    obtain ⟨b, m⟩ := w
    simp only [applyWrites]
    by_cases e : b = a
    · subst e
      rw [writeAt_writeAt]
    · rw [writeAt_comm b a m n h e, ih]

/-- Doing a list of overwrites a second time changes nothing. -/
theorem applyWrites_twice (ws : List (Nat × String)) (h : Heap) :
    applyWrites ws (applyWrites ws h) = applyWrites ws h := by
  induction ws using List.reverseRecOn generalizing h with
  | nil => rfl
  | append_singleton ws w ih =>
    obtain ⟨a, n⟩ := w
    simp only [applyWrites_append, applyWrites]
    rw [applyWrites_absorb, ih]

theorem allTaggable_applyWrites (ws : List (Nat × String)) (h : Heap)
    (input : SObjCollection) : allTaggable (applyWrites ws h) input ↔ allTaggable h input := by
  induction ws generalizing h with
  | nil => simp [applyWrites]
  | cons w ws ih =>
    obtain ⟨a, n⟩ := w
    simp [applyWrites, ih, allTaggable_writeAt]

theorem writes_ext (l1 l2 : List (Nat × String))
    (h1 : l1.map (fun w => some w.1) = l2.map (fun w => some w.1))
    (h2 : l1.map Prod.snd = l2.map Prod.snd) : l1 = l2 := by
  induction l1 generalizing l2 with
  | nil =>
    cases l2 with
    | nil => rfl
    | cons y ys => simp at h1
  | cons x xs ih =>
    cases l2 with
    | nil => simp at h1
    | cons y ys =>
      simp only [List.map_cons, List.cons.injEq, Option.some.injEq] at h1 h2
      obtain ⟨x1, x2⟩ := x
      obtain ⟨y1, y2⟩ := y
      simp only at h1 h2
      rw [ih ys h1.2 h2.2, h1.1, h2.1]

/-- A second run of the loop in which the records report the names of the first run leaves
memory as the first run left it. -/
theorem tagLoop_twice (h : Heap) (input : SObjCollection) (ht : allTaggable h input)
    (hn : reportedNames (tagLoop h input).1 input = reportedNames h input) :
    tagLoop (tagLoop h input).1 input = ((tagLoop h input).1, true) := by
  have h1 := tagLoop_complete h input ht
  rw [h1] at hn ⊢
  simp only at hn ⊢
  have ht2 : allTaggable (applyWrites (tagWrites h input) h) input :=
    (allTaggable_applyWrites _ _ _).2 ht
  rw [tagLoop_complete _ input ht2]
  have hw : tagWrites (applyWrites (tagWrites h input) h) input = tagWrites h input :=
    writes_ext _ _ (by rw [tagWrites_addr _ _ ht2, tagWrites_addr _ _ ht]) hn
  rw [hw, applyWrites_twice]

/-- A second tagging of a record that reports the name of the first tagging changes
nothing. -/
theorem tagRecord_twice (h h1 : Heap) (so : SObject) (ht : tagRecord h so = some h1)
    (hn : so.name h1 = so.name h) : tagRecord h1 so = some h1 := by
  obtain ⟨htag, a, ha, rfl⟩ := tagRecord_some h so h1 ht
  obtain ⟨a', ha', hw⟩ := tagRecord_of_taggable _ so ((taggable_writeAt a _ h so).2 htag)
  rw [ha] at ha'
  cases ha'
  rw [hw, hn, writeAt_writeAt]

/-! ## The call -/

/-- On taggable records the call runs to the end: one executor invocation with the records
of the input, in the memory the loop leaves, whose response and error it returns. -/
theorem SObjCollectionCreate_complete (env : Imports) (forceApi : ForceApi) (h : Heap)
    (input : SObjCollection) (allOrNone : Bool) (ht : allTaggable h input) :
    SObjCollectionCreate env forceApi h input allOrNone =
      { heap := (tagLoop h input).1,
        calls := [⟨env.Join (forceApi.apiResources env.compositeKey) "sobjects", none,
          ⟨allOrNone, input⟩, (tagLoop h input).1⟩],
        result := some (forceApi.Post
          (env.Join (forceApi.apiResources env.compositeKey) "sobjects") none
          ⟨allOrNone, input⟩ (tagLoop h input).1 []) } := by
  have h2 := tagLoop_complete h input ht
  unfold SObjCollectionCreate
  split
  · rename_i recs heq
    rw [heq] at h2
    simp at h2
  · rename_i recs heq
    simp [heq]

/-- A panic in the loop ends the call before the executor is reached. -/
theorem SObjCollectionCreate_panics (env : Imports) (forceApi : ForceApi) (h : Heap)
    (input : SObjCollection) (allOrNone : Bool) (hp : (tagLoop h input).2 = false) :
    SObjCollectionCreate env forceApi h input allOrNone =
      { heap := (tagLoop h input).1, calls := [], result := none } := by
  unfold SObjCollectionCreate
  split
  · rename_i recs heq
    simp [heq]
  · rename_i recs heq
    rw [heq] at hp
    simp at hp

/-! ## The claims -/

/-- C1, counterexample. The test's two records are submitted to an executor that decodes a
single outcome entry and reports no error: the call returns that one entry and a nil error, so
a response shorter than the request comes back without a call-level error. -/
theorem C1_short_response_without_error :
    (SObjCollectionCreate testImports (serverReplying [⟨"001RM000003oLnnYAE", [], true⟩] none)
        testHeap expenses true).result = some ([⟨"001RM000003oLnnYAE", [], true⟩], none) ∧
      expenses.length = 2 := by
  constructor
  · rw [SObjCollectionCreate_complete _ _ _ _ _ (by decide)]
    rfl
  · rfl

/-- C1, amended. For every input sequence of taggable records the call returns the executor's
error unchanged and a response with exactly as many entries as the executor decoded; that
number is not compared with the number of input records. -/
theorem C1_response_length_is_decoded_length (env : Imports) (forceApi : ForceApi) (h : Heap)
    (input : SObjCollection) (allOrNone : Bool) (ht : allTaggable h input) :
    ∃ call resp err,
      (SObjCollectionCreate env forceApi h input allOrNone).calls = [call] ∧
      (SObjCollectionCreate env forceApi h input allOrNone).result = some (resp, err) ∧
      resp.length = (forceApi.Post call.uri call.params call.req call.heap []).1.length ∧
      err = (forceApi.Post call.uri call.params call.req call.heap []).2 := by
  rw [SObjCollectionCreate_complete env forceApi h input allOrNone ht]
  exact ⟨_, _, _, rfl, rfl, rfl, rfl⟩

/-- C1, witness: two taggable records, one decoded entry, no error. -/
theorem C1_response_length_is_decoded_length_witness :
    allTaggable testHeap expenses ∧
    ∃ call resp err,
      (SObjCollectionCreate testImports (serverReplying [duplicateRefused] none)
        testHeap expenses false).calls = [call] ∧
      (SObjCollectionCreate testImports (serverReplying [duplicateRefused] none)
        testHeap expenses false).result = some (resp, err) ∧
      resp.length = ((serverReplying [duplicateRefused] none).Post
        call.uri call.params call.req call.heap []).1.length ∧
      err = ((serverReplying [duplicateRefused] none).Post
        call.uri call.params call.req call.heap []).2 :=
  ⟨by decide, C1_response_length_is_decoded_length testImports
    (serverReplying [duplicateRefused] none) testHeap expenses false (by decide)⟩

/-- C2. For every input sequence of taggable records the call makes one executor run; when
that run decodes the outcome sequence r and reports the error e, the call returns exactly r and
e, whatever the succeeded flags in r: the returned entries carry the flags the executor
decoded, and the call-level error is non-nil if and only if the executor's is. -/
theorem C2_record_failures_are_data (env : Imports) (forceApi : ForceApi) (h : Heap)
    (input : SObjCollection) (allOrNone : Bool) (ht : allTaggable h input) :
    ∃ call, (SObjCollectionCreate env forceApi h input allOrNone).calls = [call] ∧
      ∀ r e, forceApi.Post call.uri call.params call.req call.heap [] = (r, e) →
        (SObjCollectionCreate env forceApi h input allOrNone).result = some (r, e) ∧
        ∀ resp err,
          (SObjCollectionCreate env forceApi h input allOrNone).result = some (resp, err) →
            resp = r ∧ resp.map (fun x => x.Success) = r.map (fun x => x.Success) ∧
            (err ≠ none ↔ e ≠ none) := by
  rw [SObjCollectionCreate_complete env forceApi h input allOrNone ht]
  refine ⟨_, rfl, ?_⟩
  intro r e hrun
  simp only at hrun
  refine ⟨by simp [hrun], ?_⟩
  intro resp err hres
  simp only [hrun, Option.some.injEq, Prod.mk.injEq] at hres
  obtain ⟨rfl, rfl⟩ := hres
  exact ⟨rfl, rfl, Iff.rfl⟩

/-- C2, witness: the test case with a refused record and a created one, no call-level
error. -/
theorem C2_record_failures_are_data_witness :
    allTaggable testHeap expenses ∧
    ∃ call, (SObjCollectionCreate testImports (serverReplying someFailed none)
        testHeap expenses true).calls = [call] ∧
      ∀ r e, (serverReplying someFailed none).Post call.uri call.params call.req call.heap []
          = (r, e) →
        (SObjCollectionCreate testImports (serverReplying someFailed none)
          testHeap expenses true).result = some (r, e) ∧
        ∀ resp err,
          (SObjCollectionCreate testImports (serverReplying someFailed none)
            testHeap expenses true).result = some (resp, err) →
            resp = r ∧ resp.map (fun x => x.Success) = r.map (fun x => x.Success) ∧
            (err ≠ none ↔ e ≠ none) :=
  ⟨by decide, C2_record_failures_are_data testImports (serverReplying someFailed none)
    testHeap expenses true (by decide)⟩

/-- In a collection of pairwise distinct taggable objects the loop leaves each record's object
as it was but for the slot, which holds the name the record reports before the loop. -/
theorem tagLoop_tags_distinct (h : Heap) (input : SObjCollection) (ht : allTaggable h input)
    (hd : distinctObjects input) (i : Nat) (so : SObject) (hi : input[i]? = some so) :
    ∃ a obj, so.addr = some a ∧ h[a]? = some obj ∧
      (tagLoop h input).1[a]? = some (obj.withType (so.name h)) := by
  obtain ⟨a, obj, n, ha, ho, hfin⟩ := tagLoop_tags h input ht so (List.getElem?_mem hi)
  refine ⟨a, obj, ha, ho, ?_⟩
  have h1 := typeField_after_loop h input ht i so hi
    (notSharedAfter_of_distinct input hd i so hi)
  rw [reportedNames_of_distinct h input ht hd i so hi] at h1
  obtain ⟨a', obj', s, hv, ho', hs⟩ := (hasTypeSlot_iff h so).1 (ht so (List.getElem?_mem hi))
  have haa : a' = a := by
    have := (addr_eq_some so a).1 ha
    rw [hv] at this
    simpa using this
  subst haa
  rw [ho] at ho'
  cases ho'
  simp only [SObject.typeField, record_of_addr _ so a' ha, hfin,
    typeName_withType n obj s hs, Option.some.injEq] at h1
  rw [hfin, h1]

/-- C4. For every input sequence of taggable records and every flag, the request handed to the
executor carries the flag as `AllOrNone` and as `Records` the input sequence itself: as many
records as the input, the record at each index being the input record at that index, none
dropped, duplicated or moved, each in its tagged state (its object as before the call but for
the type-name slot; with the name it reports before the call when the records are pairwise
distinct objects). -/
theorem C4_request_keeps_flag_and_order (env : Imports) (forceApi : ForceApi) (h : Heap)
    (input : SObjCollection) (allOrNone : Bool) (ht : allTaggable h input) :
    ∃ call, (SObjCollectionCreate env forceApi h input allOrNone).calls = [call] ∧
      call.req.AllOrNone = allOrNone ∧
      call.req.Records = input ∧
      call.req.Records.length = input.length ∧
      (∀ (i : Nat) (so : SObject), input[i]? = some so →
        call.req.Records[i]? = some so ∧
        ∃ a obj n, so.addr = some a ∧ h[a]? = some obj ∧
          call.heap[a]? = some (obj.withType n)) ∧
      (distinctObjects input →
        ∀ (i : Nat) (so : SObject), input[i]? = some so →
          ∃ a obj, so.addr = some a ∧ h[a]? = some obj ∧
            call.heap[a]? = some (obj.withType (so.name h))) := by
  rw [SObjCollectionCreate_complete env forceApi h input allOrNone ht]
  refine ⟨_, rfl, rfl, rfl, rfl, ?_, ?_⟩
  · intro i so hi
    exact ⟨hi, tagLoop_tags h input ht so (List.getElem?_mem hi)⟩
  · intro hd i so hi
    exact tagLoop_tags_distinct h input ht hd i so hi

/-- C4, witness: the test's two records with the flag set. -/
theorem C4_request_keeps_flag_and_order_witness :
    allTaggable testHeap expenses ∧
    ∃ call, (SObjCollectionCreate testImports (serverReplying allSucceeded none)
        testHeap expenses true).calls = [call] ∧
      call.req.AllOrNone = true ∧
      call.req.Records = expenses ∧
      call.req.Records.length = expenses.length ∧
      (∀ (i : Nat) (so : SObject), expenses[i]? = some so →
        call.req.Records[i]? = some so ∧
        ∃ a obj n, so.addr = some a ∧ testHeap[a]? = some obj ∧
          call.heap[a]? = some (obj.withType n)) ∧
      (distinctObjects expenses →
        ∀ (i : Nat) (so : SObject), expenses[i]? = some so →
          ∃ a obj, so.addr = some a ∧ testHeap[a]? = some obj ∧
            call.heap[a]? = some (obj.withType (so.name testHeap))) :=
  ⟨by decide, C4_request_keeps_flag_and_order testImports (serverReplying allSucceeded none)
    testHeap expenses true (by decide)⟩

/-- C5. For every input sequence that holds, at some index, a record whose envelope type-name
slot cannot be located or written, the call panics in the loop: the executor is not invoked
and no pair is returned. -/
theorem C5_untaggable_record_panics_before_Post (env : Imports) (forceApi : ForceApi)
    (h : Heap) (input : SObjCollection) (allOrNone : Bool) (i : Nat) (so : SObject)
    (hmem : input[i]? = some so) (hs : so.hasTypeSlot h = false) :
    (SObjCollectionCreate env forceApi h input allOrNone).calls = [] ∧
      (SObjCollectionCreate env forceApi h input allOrNone).result = none := by
  have hnot : ¬ taggable h so := by simp [taggable, hs]
  have hp := tagLoop_panics h input so (List.getElem?_mem hmem) hnot
  rw [SObjCollectionCreate_panics env forceApi h input allOrNone hp]
  exact ⟨rfl, rfl⟩

/-- C5, witness: a record handed over by value after a taggable one. -/
theorem C5_untaggable_record_panics_before_Post_witness :
    [mockSObject 0, byValueRecord][1]? = some byValueRecord ∧
    byValueRecord.hasTypeSlot testHeap = false ∧
    (SObjCollectionCreate testImports (serverReplying allSucceeded none) testHeap
      [mockSObject 0, byValueRecord] true).calls = [] ∧
    (SObjCollectionCreate testImports (serverReplying allSucceeded none) testHeap
      [mockSObject 0, byValueRecord] true).result = none :=
  ⟨rfl, by decide, C5_untaggable_record_panics_before_Post testImports
    (serverReplying allSucceeded none) testHeap [mockSObject 0, byValueRecord] true 1
    byValueRecord rfl (by decide)⟩

/-- C6. For every input sequence and every executor whose response is the same for both
flags, the call with `allOrNone = true` returns what the call with `allOrNone = false` returns,
entry by entry, and leaves the records in the same state: the flag reaches the request envelope
and nothing else. -/
theorem C6_flag_does_not_touch_outcomes (env : Imports) (forceApi : ForceApi) (h : Heap)
    (input : SObjCollection) (hfix : ignoresAllOrNone forceApi) :
    (SObjCollectionCreate env forceApi h input true).result =
        (SObjCollectionCreate env forceApi h input false).result ∧
      (SObjCollectionCreate env forceApi h input true).heap =
        (SObjCollectionCreate env forceApi h input false).heap := by
  cases hl : (tagLoop h input).2 with
  | false =>
    rw [SObjCollectionCreate_panics env forceApi h input true hl,
      SObjCollectionCreate_panics env forceApi h input false hl]
    exact ⟨rfl, rfl⟩
  | true =>
    unfold SObjCollectionCreate
    split
    · rename_i recs heq
      rw [heq] at hl
      simp at hl
    · rename_i recs heq
      simp [hfix _ _ input _ _]

/-- C6, witness: the test's response with a refused record at index 0 and a created one at
index 1 comes back as that mix under either flag. -/
theorem C6_flag_does_not_touch_outcomes_witness :
    ignoresAllOrNone (serverReplying someFailed none) ∧
    (SObjCollectionCreate testImports (serverReplying someFailed none)
        testHeap expenses true).result =
      (SObjCollectionCreate testImports (serverReplying someFailed none)
        testHeap expenses false).result ∧
    (SObjCollectionCreate testImports (serverReplying someFailed none)
        testHeap expenses true).heap =
      (SObjCollectionCreate testImports (serverReplying someFailed none)
        testHeap expenses false).heap :=
  ⟨fun _ _ _ _ _ => rfl, C6_flag_does_not_touch_outcomes testImports
    (serverReplying someFailed none) testHeap expenses (fun _ _ _ _ _ => rfl)⟩

/-- C7, counterexample. A taggable record whose `ApiName()` reads the record's type field is
submitted twice: the first request carries it as `Draft__c`, the second as `Final__c`, so the
second tagging does not leave the record as the first left it. -/
theorem C7_second_tagging_writes_another_name :
    allTaggable testHeap [draftRecord 0] ∧
      (SObjCollectionCreate testImports (serverReplying allSucceeded none) testHeap
        [draftRecord 0] true).calls.map
          (fun c => c.req.Records.map (SObject.typeField c.heap)) = [[some "Draft__c"]] ∧
      (SObjCollectionCreate testImports (serverReplying allSucceeded none)
        (SObjCollectionCreate testImports (serverReplying allSucceeded none) testHeap
          [draftRecord 0] true).heap
        [draftRecord 0] true).calls.map
          (fun c => c.req.Records.map (SObject.typeField c.heap)) = [[some "Final__c"]] := by
  decide

/-- C7, amended. Tagging twice with the same type name is idempotent: a second tagging of a
record that reports the name it reported at the first tagging leaves the record as the first
left it, and submitting a collection of taggable records a second time hands the executor the
same request as the first time, when the records report at the second submission the names
they reported at the first. -/
theorem C7_tagging_twice_with_same_name (env : Imports) (forceApi : ForceApi) (h : Heap)
    (input : SObjCollection) (allOrNone : Bool) (ht : allTaggable h input)
    (hn : reportedNames (SObjCollectionCreate env forceApi h input allOrNone).heap input =
      reportedNames h input) :
    (∀ (so : SObject) (h0 h1 : Heap), tagRecord h0 so = some h1 → so.name h1 = so.name h0 →
        tagRecord h1 so = some h1) ∧
      (SObjCollectionCreate env forceApi
          (SObjCollectionCreate env forceApi h input allOrNone).heap input allOrNone).calls =
        (SObjCollectionCreate env forceApi h input allOrNone).calls ∧
      (SObjCollectionCreate env forceApi
          (SObjCollectionCreate env forceApi h input allOrNone).heap input allOrNone).heap =
        (SObjCollectionCreate env forceApi h input allOrNone).heap := by
  refine ⟨fun so h0 h1 => tagRecord_twice h0 h1 so, ?_⟩
  rw [SObjCollectionCreate_complete env forceApi h input allOrNone ht] at hn ⊢
  simp only at hn ⊢
  have h2 := tagLoop_twice h input ht hn
  simp only [SObjCollectionCreate, h2, and_self]

/-- C7, witness: the test's collection, whose records report a constant name, submitted
twice. -/
theorem C7_tagging_twice_with_same_name_witness :
    allTaggable testHeap expenses ∧
    reportedNames (SObjCollectionCreate testImports (serverReplying allSucceeded none)
      testHeap expenses true).heap expenses = reportedNames testHeap expenses ∧
    (∀ (so : SObject) (h0 h1 : Heap), tagRecord h0 so = some h1 → so.name h1 = so.name h0 →
        tagRecord h1 so = some h1) ∧
      (SObjCollectionCreate testImports (serverReplying allSucceeded none)
          (SObjCollectionCreate testImports (serverReplying allSucceeded none)
            testHeap expenses true).heap expenses true).calls =
        (SObjCollectionCreate testImports (serverReplying allSucceeded none)
          testHeap expenses true).calls ∧
      (SObjCollectionCreate testImports (serverReplying allSucceeded none)
          (SObjCollectionCreate testImports (serverReplying allSucceeded none)
            testHeap expenses true).heap expenses true).heap =
        (SObjCollectionCreate testImports (serverReplying allSucceeded none)
          testHeap expenses true).heap :=
  ⟨by decide, by decide, C7_tagging_twice_with_same_name testImports
    (serverReplying allSucceeded none) testHeap expenses true (by decide) (by decide)⟩

/-- C8, counterexample. The empty collection is submitted to an executor that reports an
error, and to one that decodes an entry and reports none: the call returns the error in the
first case and the one-entry response in the second. -/
theorem C8_empty_input_follows_executor :
    (SObjCollectionCreate testImports (serverReplying [] (some "400 Bad Request"))
        testHeap [] false).result = some ([], some "400 Bad Request") ∧
      (SObjCollectionCreate testImports (serverReplying [duplicateRefused] none)
        testHeap [] false).result = some ([duplicateRefused], none) := by
  constructor <;> rfl

/-- C8, amended. For the empty input sequence the call tags nothing, invokes the executor once
with an empty `Records` sequence and returns what the executor delivers: a zero-length
response and no call-level error exactly when the executor decodes no entry and reports no
error. -/
theorem C8_empty_input_returns_executor_result (env : Imports) (forceApi : ForceApi)
    (h : Heap) (allOrNone : Bool) :
    (SObjCollectionCreate env forceApi h [] allOrNone).heap = h ∧
      (SObjCollectionCreate env forceApi h [] allOrNone).calls =
        [⟨env.Join (forceApi.apiResources env.compositeKey) "sobjects", none,
          ⟨allOrNone, []⟩, h⟩] ∧
      (SObjCollectionCreate env forceApi h [] allOrNone).result =
        some (forceApi.Post (env.Join (forceApi.apiResources env.compositeKey) "sobjects")
          none ⟨allOrNone, []⟩ h []) ∧
      ((SObjCollectionCreate env forceApi h [] allOrNone).result = some ([], none) ↔
        forceApi.Post (env.Join (forceApi.apiResources env.compositeKey) "sobjects")
          none ⟨allOrNone, []⟩ h [] = ([], none)) := by
  simp [SObjCollectionCreate, tagLoop]

/-- C9. For every input sequence of taggable records one call invokes the executor exactly
once, whether or not that invocation reports an error, and returns the executor's error
unchanged. -/
theorem C9_one_Post_per_call (env : Imports) (forceApi : ForceApi) (h : Heap)
    (input : SObjCollection) (allOrNone : Bool) (ht : allTaggable h input) :
    (SObjCollectionCreate env forceApi h input allOrNone).calls.length = 1 ∧
      ∃ call resp, (SObjCollectionCreate env forceApi h input allOrNone).calls = [call] ∧
        (SObjCollectionCreate env forceApi h input allOrNone).result =
          some (resp, (forceApi.Post call.uri call.params call.req call.heap []).2) := by
  rw [SObjCollectionCreate_complete env forceApi h input allOrNone ht]
  exact ⟨rfl, _, _, rfl, rfl⟩

/-- C9, witness: an executor that fails is invoked once and its error handed back. -/
theorem C9_one_Post_per_call_witness :
    allTaggable testHeap expenses ∧
    (SObjCollectionCreate testImports (serverReplying [] (some "connection refused"))
        testHeap expenses true).calls.length = 1 ∧
      ∃ call resp, (SObjCollectionCreate testImports
          (serverReplying [] (some "connection refused")) testHeap expenses true).calls
            = [call] ∧
        (SObjCollectionCreate testImports (serverReplying [] (some "connection refused"))
          testHeap expenses true).result =
          some (resp, ((serverReplying [] (some "connection refused")).Post
            call.uri call.params call.req call.heap []).2) :=
  ⟨by decide, C9_one_Post_per_call testImports (serverReplying [] (some "connection refused"))
    testHeap expenses true (by decide)⟩

end force
